import Mathlib

/-!
Verification of the portfolio simulation and performance-metrics core of
the lazy-tracker repository (src/scripts/portfolio.py).

The Python code is shallowly embedded:
* money amounts, prices and weights become exact rationals (ℚ);
  the floating-point claims ("exactly, within floating-point tolerance")
  are settled in exact arithmetic;
* a pandas price row / weight dict becomes an association list
  `List (Ticker × ℚ)`; iteration "for t in weights" is iteration over
  that list in order, lookups into the price row go through
  `List.lookup`, and Python dict values keyed by the weight tickers are
  represented positionally (a `List` parallel to the weight list),
  which is exact because a Python dict comprehension over `weights`
  produces exactly one entry per weight ticker, in order;
* Python exceptions become an `Except PyError` result: `KeyError` for a
  missing label, `ZeroDivisionError` for division by zero, and
  `ValueError msg` for the explicit `raise ValueError(...)` statements
  and for `max()` on an empty sequence;
* dates are (year, month, day) triples; only equality of dates and
  calendar bucketing are ever used by the code.

Statistics that involve a square root (volatility, Sharpe/Sortino,
tracking error) are embedded over ℝ with `Real.sqrt`; everything up to
and including the return series is exact ℚ computation.
-/

deriving instance DecidableEq for Except

namespace LazyTracker

abbrev Ticker := ℕ

/-- A calendar date (year, month, day). The simulator only compares
dates for equality and buckets them by calendar period. -/
abbrev Date := ℕ × ℕ × ℕ

/-- One row of the price table: ticker → adjusted close. -/
abbrev Row := List (Ticker × ℚ)

/-- Target weights: ticker → fraction, in dict insertion order. -/
abbrev Weights := List (Ticker × ℚ)

/-- The Python exceptions the simulation core can raise. -/
inductive PyError where
  | keyError (t : Ticker)
  | zeroDivisionError
  | valueError (msg : String)
deriving DecidableEq

/-- One record appended per trading day by `simulate_portfolio`:
per-ticker position values (parallel to the weight list), the leftover
cash, the total value and the maximum absolute weight deviation. -/
structure PerfRow where
  date : Date
  vals : List ℚ
  cash : ℚ
  total : ℚ
  max_weight_deviation : ℚ
deriving DecidableEq

/-- Effectful map over a list, stopping at the first raised exception —
the evaluation order of a Python dict comprehension. -/
def mapE {α β : Type} (f : α → Except PyError β) : List α → Except PyError (List β)
  | [] => .ok []
  | a :: as =>
    match f a with
    | .error e => .error e
    | .ok b =>
      match mapE f as with
      | .error e => .error e
      | .ok bs => .ok (b :: bs)

/-- Python `row[t]`: label lookup in an association list (first match wins,
as in a pandas Series / Python dict). -/
def lookupRow : Row → Ticker → Option ℚ
  | [], _ => none
  | e :: rest, t => if e.1 = t then some e.2 else lookupRow rest t

/-- Python `int(cash * w // prices[t])` together with the price lookup for one
ticker: `KeyError` if the ticker is absent from the row,
`ZeroDivisionError` if its price is zero, otherwise the floored share
count paired with the looked-up price (`//` on Python floats is floor
division and `int` of its result is exactly the mathematical floor). -/
def allocEntry (cash : ℚ) (row : Row) (tw : Ticker × ℚ) : Except PyError (ℤ × ℚ) :=
  match lookupRow row tw.1 with
  | none => .error (.keyError tw.1)
  | some p =>
    if p = 0 then .error .zeroDivisionError
    else .ok (⌊cash * tw.2 / p⌋, p)

/-- Embeds `initialize_portfolio(cash, prices, weights)`:
`allocation = {t: cash*w}`, `shares = {t: int(allocation[t] // prices[t])}`,
`leftover = cash - sum(shares[t] * prices[t])`. The rebalance branch of
`simulate_portfolio` executes this same computation with
`cash := total_value`, so it is embedded once. -/
def initialize_portfolio (cash : ℚ) (row : Row) (weights : Weights) :
    Except PyError (List ℤ × ℚ) :=
  match mapE (allocEntry cash row) weights with
  | .error e => .error e
  | .ok es =>
      .ok (es.map Prod.fst, cash - (es.map (fun sp => (sp.1 : ℚ) * sp.2)).sum)

/-- The prices of the weight tickers in one row, in weight order
(`price_row[t] for t in weights`); `KeyError` on a missing label. -/
def rowPrices (row : Row) (weights : Weights) : Except PyError (List ℚ) :=
  mapE (fun tw =>
    match lookupRow row tw.1 with
    | none => .error (.keyError tw.1)
    | some p => .ok p) weights

/-- Python `vals = \x7bt: shares[t] * price_row[t] for t in weights\x7d`: one position
value per weight entry, shares and prices taken positionally. -/
def zipVals (shares : List ℤ) (ps : List ℚ) : List ℚ :=
  List.zipWith (fun (s : ℤ) (p : ℚ) => (s : ℚ) * p) shares ps

/-- Python `current_weights = \x7bt: vals[t]/total_value for t in weights\x7d`; every
division raises `ZeroDivisionError` when the total is zero (so an empty
dict raises nothing, exactly as in Python). -/
def currentWeights (vals : List ℚ) (total : ℚ) : Except PyError (List ℚ) :=
  mapE (fun v => if total = 0 then Except.error PyError.zeroDivisionError
                 else Except.ok (v / total)) vals

/-- Python `max(abs(current_weights[t] - weights[t]) for t in weights)`:
Python's `max` of an empty sequence raises `ValueError`; otherwise it is
the left fold of the binary max over the generator. -/
def maxDeviation (curw : List ℚ) (weights : Weights) : Except PyError ℚ :=
  match List.zipWith (fun cw (tw : Ticker × ℚ) => |cw - tw.2|) curw weights with
  | [] => .error (.valueError "max() arg is an empty sequence")
  | d :: ds => .ok (ds.foldl max d)

/-- The body of the daily loop up to `records.append(...)`: value the
positions, compute the total, the current weights and the maximum
absolute deviation, and build the emitted record — all from the
incoming (pre-rebalance) holdings. -/
def perfOfState (weights : Weights) (date : Date) (row : Row)
    (shares : List ℤ) (leftover : ℚ) : Except PyError PerfRow :=
  match rowPrices row weights with
  | .error e => .error e
  | .ok ps =>
    match currentWeights (zipVals shares ps) ((zipVals shares ps).sum + leftover) with
    | .error e => .error e
    | .ok curw =>
      match maxDeviation curw weights with
      | .error e => .error e
      | .ok m =>
        .ok ⟨date, zipVals shares ps, leftover, (zipVals shares ps).sum + leftover, m⟩

/-- One iteration of the daily loop: emit the record, then — only when
the date is a rebalance date and differs from the first date of the
series — replace holdings and leftover by re-running the allocation at
the recorded total value and this date's prices. -/
def dayStep (weights : Weights) (rebalDates : List Date) (firstDate : Date)
    (st : List ℤ × ℚ) (dr : Date × Row) : Except PyError (PerfRow × (List ℤ × ℚ)) :=
  match perfOfState weights dr.1 dr.2 st.1 st.2 with
  | .error e => .error e
  | .ok r =>
    if dr.1 ∈ rebalDates ∧ dr.1 ≠ firstDate then
      match initialize_portfolio r.total dr.2 weights with
      | .error e => .error e
      | .ok st' => .ok (r, st')
    else .ok (r, st)

/-- The daily loop of `simulate_portfolio`, threading (shares, leftover). -/
def simLoop (weights : Weights) (rebalDates : List Date) (firstDate : Date) :
    List ℤ × ℚ → List (Date × Row) → Except PyError (List PerfRow)
  | _, [] => .ok []
  | st, dr :: rest =>
    match dayStep weights rebalDates firstDate st dr with
    | .error e => .error e
    | .ok (r, st') =>
      match simLoop weights rebalDates firstDate st' rest with
      | .error e => .error e
      | .ok tail => .ok (r :: tail)

/-- Embeds `simulate_portfolio` after the rebalance dates have been computed:
reject an empty table (`ValueError`), allocate the initial holdings at
the first row, then run the daily loop over the whole table. -/
def simulate_core (table : List (Date × Row)) (weights : Weights)
    (initial_cash : ℚ) (rebalDates : List Date) : Except PyError (List PerfRow) :=
  match table with
  | [] => .error (.valueError "Empty price data. Cannot initialize portfolio.")
  | (d0, r0) :: _ =>
    match initialize_portfolio initial_cash r0 weights with
    | .error e => .error e
    | .ok st0 => simLoop weights rebalDates d0 st0 table

/-- The last element of each calendar bucket of a chronologically
ordered list: an element is kept when no later element shares its key. -/
def lastPerKey {α : Type} (key : α → ℕ) : List α → List α
  | [] => []
  | a :: rest =>
    if rest.any (fun e => key e = key a) then lastPerKey key rest
    else a :: lastPerKey key rest

/-- Modelled from the spec: the pandas period-code resolution behind
`prices.resample(rebalance_period)` (the pandas library is not part of
the repository). The frequency selector takes the period codes the
application uses — month-end, quarter-end, year-end (including the
legacy spellings) and the "never" sentinel 100Y — and an unresolvable
code raises; a resolvable code buckets the date index by calendar
period, per the spec's "last trading date within that period". -/
def periodKeyFn (period : String) : Option (Date → ℕ) :=
  if period = "M" ∨ period = "ME" then some (fun d => d.1 * 12 + d.2.1)
  else if period = "QE" then some (fun d => d.1 * 4 + (d.2.1 - 1) / 3)
  else if period = "A" ∨ period = "Y" ∨ period = "YE" then some (fun d => d.1)
  else if period = "100Y" then some (fun d => d.1 / 100)
  else none

/-- The call `prices.resample(rebalance_period).last().index` wrapped in the
source's try/except: an unresolvable period code becomes
`ValueError("Failed to resample with period ...")`. -/
def resampleRebalanceDates (period : String) (dates : List Date) :
    Except PyError (List Date) :=
  match periodKeyFn period with
  | none => .error (.valueError ("Failed to resample with period " ++ period))
  | some key => .ok (lastPerKey key dates)

/-- Embeds `simulate_portfolio(prices, weights, initial_cash, rebalance_period)`:
remap the deprecated "Q" to "QE", resolve the rebalance dates (which may
raise), then check for emptiness, allocate and loop. -/
def simulate_portfolio (table : List (Date × Row)) (weights : Weights)
    (initial_cash : ℚ) (rebalance_period : String) : Except PyError (List PerfRow) :=
  match resampleRebalanceDates (if rebalance_period = "Q" then "QE" else rebalance_period)
      (table.map Prod.fst) with
  | .error e => .error e
  | .ok rd => simulate_core table weights initial_cash rd

/-- pandas `Series.pct_change().dropna()`: successive fractional changes; the
first row's undefined change is dropped. -/
def pctChange (l : List ℚ) : List ℚ :=
  List.zipWith (fun a b => b / a - 1) l l.tail

/-- The three derived return series of `calculate_returns`. -/
structure ReturnSeries where
  daily : List ℚ
  monthly : List ℚ
  annual : List ℚ
deriving DecidableEq

/-- Embeds `calculate_returns(portfolio_df)` applied to the (date, total)
series: daily percentage changes, and percentage changes of the last
total of each calendar month / year. -/
def calculate_returns (rows : List (Date × ℚ)) : ReturnSeries :=
  { daily := pctChange (rows.map Prod.snd)
    monthly := pctChange ((lastPerKey (fun dr => dr.1.1 * 12 + dr.1.2.1) rows).map Prod.snd)
    annual := pctChange ((lastPerKey (fun dr => dr.1.1) rows).map Prod.snd) }

/-! ### Metrics Engine and Benchmark Comparator

These are embedded over ℝ because volatility-style statistics take a
square root. The degenerate inputs on which pandas/numpy produce NaN
(standard deviation of fewer than two points, statistics of an empty
series) evaluate to 0 here by Lean's division-by-zero convention; every
claim below either avoids those inputs or concerns a guard whose
outcome agrees (`NaN > 0` is false in Python, `0 > 0` is false here). -/

/-- pandas `Series.mean()`. -/
noncomputable def listMean (l : List ℝ) : ℝ := l.sum / l.length

/-- The sample variance behind pandas `Series.std()` (ddof = 1). -/
noncomputable def sampleVar (l : List ℝ) : ℝ :=
  (l.map (fun x => (x - listMean l) ^ 2)).sum / ((l.length : ℝ) - 1)

/-- pandas `Series.std()` (ddof = 1). -/
noncomputable def sampleStd (l : List ℝ) : ℝ := Real.sqrt (sampleVar l)

/-- numpy `np.var` (population variance, ddof = 0). -/
noncomputable def popVar (l : List ℝ) : ℝ :=
  (l.map (fun x => (x - listMean l) ^ 2)).sum / l.length

/-- numpy `np.cov(p, b)[0, 1]`: sample covariance, normalized by n − 1. -/
noncomputable def sampleCov (p b : List ℝ) : ℝ :=
  (List.zipWith (fun x y => (x - listMean p) * (y - listMean b)) p b).sum
    / ((p.length : ℝ) - 1)

/-- pandas `Series.cumprod()`. -/
noncomputable def cumprod (l : List ℝ) : List ℝ := (l.scanl (· * ·) 1).tail

/-- pandas `Series.cummax()`. -/
noncomputable def cummax : List ℝ → List ℝ
  | [] => []
  | a :: rest => List.scanl max a rest

/-- The scalar report of `calculate_metrics`. `var_95` (a scipy normal
quantile with a −0.02 fallback) involves the normal inverse CDF and is
not part of this embedding; no claim concerns it. -/
structure MetricsReport where
  annualized_return : ℝ
  annualized_volatility : ℝ
  sharpe : ℝ
  sortino : ℝ
  max_drawdown : ℝ
  total_return : ℝ

/-- Embeds `calculate_metrics(returns)` on the daily return series:
annualized return `(1 + mean)^252 − 1`, annualized volatility
`std·√252`, the zero-guarded Sharpe and Sortino ratios, the maximum
drawdown `min(cumprod/cummax − 1)` (0 on an empty series, where pandas
has NaN) and the total return (0 on an empty series, per the explicit
length guard in the source). -/
noncomputable def calculate_metrics (daily : List ℝ) : MetricsReport :=
  let ann_return := (1 + listMean daily) ^ (252 : ℕ) - 1
  let ann_vol := sampleStd daily * Real.sqrt 252
  let cumulative := cumprod (daily.map (fun r => 1 + r))
  let drawdowns := List.zipWith (fun c m => c / m - 1) cumulative (cummax cumulative)
  let neg := daily.filter (fun r => r < 0)
  let downside_dev := if 0 < neg.length then sampleStd neg * Real.sqrt 252 else 0
  { annualized_return := ann_return
    annualized_volatility := ann_vol
    sharpe := if 0 < ann_vol then ann_return / ann_vol else 0
    sortino := if 0 < downside_dev then ann_return / downside_dev else 0
    max_drawdown := match drawdowns with | [] => 0 | d :: ds => ds.foldl min d
    total_return := if 0 < daily.length then (daily.map (fun r => 1 + r)).prod - 1 else 0 }

/-- The report of `compare_to_benchmark`. `info_ratio` is the
`information_ratio` entry of the returned dict. -/
structure ComparisonReport where
  beta : ℝ
  alpha : ℝ
  tracking_error : ℝ
  info_ratio : ℝ

/-- Embeds `compare_to_benchmark(portfolio_returns, benchmark_returns)`:
beta `np.cov(p,b)[0,1] / np.var(b)` guarded to 1, Jensen's alpha with a
zero risk-free rate, tracking error `std(p − b)·√252`, and the
zero-guarded information ratio. -/
noncomputable def compare_to_benchmark (p b : List ℝ) : ComparisonReport :=
  let cov := sampleCov p b
  let varb := popVar b
  let beta := if 0 < varb then cov / varb else 1
  let alpha := listMean p * 252 - beta * (listMean b * 252)
  let te := sampleStd (List.zipWith (fun x y => x - y) p b) * Real.sqrt 252
  { beta := beta
    alpha := alpha
    tracking_error := te
    info_ratio := if 0 < te then (listMean p - listMean b) * 252 / te else 0 }

/-- The (date, total) series handed from the Simulator's performance
table to the Return Calculator. -/
def perfTotals (rows : List PerfRow) : List (Date × ℚ) :=
  rows.map (fun r => (r.date, r.total))

/-- Every ticker of the weight dict is present in the row with a
strictly positive price (the spec's PriceTable invariant together with
positive prices). -/
def PositivePricesFor (weights : Weights) (row : Row) : Prop :=
  ∀ tw ∈ weights, ∃ p, lookupRow row tw.1 = some p ∧ 0 < p

/-- The internal holdings invariant threaded through the daily loop:
one share count per weight entry, all counts non-negative, non-negative
leftover cash, and a strictly positive position or strictly positive
cash (which makes every day's total value strictly positive). -/
def StateOK (weights : Weights) (st : List ℤ × ℚ) : Prop :=
  st.1.length = weights.length ∧ (∀ s ∈ st.1, 0 ≤ s) ∧ 0 ≤ st.2 ∧
    ((∃ s ∈ st.1, 0 < s) ∨ 0 < st.2)

/-! ### Helper lemmas -/

theorem mapE_ok_forall2 {α β : Type} (f : α → Except PyError β) :
    ∀ (l : List α) (bs : List β),
      mapE f l = .ok bs ↔ List.Forall₂ (fun a b => f a = .ok b) l bs := by
  intro l
  induction l with
  | nil =>
    intro bs
    constructor
    · intro h
      cases h
      exact List.Forall₂.nil
    · intro h
      cases h
      rfl
  | cons a as ih =>
    intro bs
    simp only [mapE]
    cases hfa : f a with
    | error e =>
      constructor
      · intro h
        cases h
      · intro h
        cases h with
        | cons hb _ => rw [hfa] at hb; cases hb
    | ok b =>
      cases hrest : mapE f as with
      | error e =>
        constructor
        · intro h
          cases h
        · intro h
          cases h with
          | cons _ htail =>
            have h1 := (ih _).mpr htail
            rw [hrest] at h1
            cases h1
      | ok cs =>
        constructor
        · intro h
          cases h
          exact List.Forall₂.cons hfa ((ih _).mp hrest)
        · intro h
          cases h with
          | cons hb htail =>
            have h1 := (ih _).mpr htail
            rw [hrest] at h1
            have h2 := Except.ok.inj h1
            rw [hfa] at hb
            have h3 := Except.ok.inj hb
            rw [h2, h3]

theorem mapE_ok_of_forall {α β : Type} (f : α → Except PyError β) (l : List α)
    (h : ∀ a ∈ l, ∃ b, f a = .ok b) : ∃ bs, mapE f l = .ok bs := by
  induction l with
  | nil => exact ⟨[], rfl⟩
  | cons a as ih =>
    obtain ⟨b, hb⟩ := h a (List.mem_cons_self a as)
    obtain ⟨bs, hbs⟩ := ih (fun x hx => h x (List.mem_cons_of_mem a hx))
    refine ⟨b :: bs, ?_⟩
    simp only [mapE, hb, hbs]

theorem mapE_length {α β : Type} {f : α → Except PyError β} {l : List α} {bs : List β}
    (h : mapE f l = .ok bs) : bs.length = l.length :=
  (List.Forall₂.length_eq ((mapE_ok_forall2 f l bs).mp h)).symm

theorem allocEntry_ok_elim {cash : ℚ} {row : Row} {tw : Ticker × ℚ} {s : ℤ} {p : ℚ}
    (h : allocEntry cash row tw = .ok (s, p)) :
    lookupRow row tw.1 = some p ∧ p ≠ 0 ∧ s = ⌊cash * tw.2 / p⌋ := by
  unfold allocEntry at h
  split at h
  · cases h
  · rename_i q hl
    split at h
    · cases h
    · rename_i hq
      have h1 := Except.ok.inj h
      rw [Prod.mk.injEq] at h1
      obtain ⟨hs, hp⟩ := h1
      subst hp
      exact ⟨hl, hq, hs.symm⟩

theorem allocEntry_ok_intro (cash : ℚ) {row : Row} {tw : Ticker × ℚ} {p : ℚ}
    (hl : lookupRow row tw.1 = some p) (hp : p ≠ 0) :
    allocEntry cash row tw = .ok (⌊cash * tw.2 / p⌋, p) := by
  unfold allocEntry
  rw [hl]
  simp only [if_neg hp]

theorem initialize_portfolio_ok_elim {cash : ℚ} {row : Row} {weights : Weights}
    {sh : List ℤ} {lo : ℚ}
    (h : initialize_portfolio cash row weights = .ok (sh, lo)) :
    ∃ es, mapE (allocEntry cash row) weights = .ok es
      ∧ sh = es.map Prod.fst
      ∧ lo = cash - (es.map (fun sp => (sp.1 : ℚ) * sp.2)).sum := by
  unfold initialize_portfolio at h
  cases hm : mapE (allocEntry cash row) weights with
  | error e => rw [hm] at h; cases h
  | ok es =>
    rw [hm] at h
    have h1 := Except.ok.inj h
    rw [Prod.mk.injEq] at h1
    exact ⟨es, rfl, h1.1.symm, h1.2.symm⟩

theorem rowPrices_of_forall2 {cash : ℚ} {row : Row} {weights : Weights}
    {es : List (ℤ × ℚ)}
    (h2 : List.Forall₂ (fun tw sp => allocEntry cash row tw = .ok sp) weights es) :
    rowPrices row weights = .ok (es.map Prod.snd) := by
  rw [rowPrices, mapE_ok_forall2]
  induction h2 with
  | nil => exact List.Forall₂.nil
  | cons ha htail ih =>
    rename_i tw sp l1 l2
    simp only [List.map_cons]
    refine List.Forall₂.cons ?_ ih
    obtain ⟨s, p⟩ := sp
    obtain ⟨hl, -, -⟩ := allocEntry_ok_elim ha
    simp [hl]

theorem rowPrices_of_allocEntry {cash : ℚ} {row : Row} {weights : Weights}
    {es : List (ℤ × ℚ)}
    (h : mapE (allocEntry cash row) weights = .ok es) :
    rowPrices row weights = .ok (es.map Prod.snd) :=
  rowPrices_of_forall2 ((mapE_ok_forall2 _ _ _).mp h)

theorem floor_share_nonneg {cash w p : ℚ} (hc : 0 ≤ cash) (hw : 0 ≤ w) (hp : 0 < p) :
    0 ≤ ⌊cash * w / p⌋ :=
  Int.floor_nonneg.mpr (div_nonneg (mul_nonneg hc hw) hp.le)

theorem floor_share_val_le {cash w p : ℚ} (hp : 0 < p) :
    (⌊cash * w / p⌋ : ℚ) * p ≤ cash * w := by
  have h1 : (⌊cash * w / p⌋ : ℚ) ≤ cash * w / p := Int.floor_le _
  have h2 := mul_le_mul_of_nonneg_right h1 hp.le
  rwa [div_mul_cancel₀ _ hp.ne'] at h2

theorem forall2_mem_right {α β : Type} {R : α → β → Prop} {Q : β → Prop} :
    ∀ {l1 : List α} {l2 : List β}, List.Forall₂ R l1 l2 →
      (∀ a ∈ l1, ∀ b, R a b → Q b) → ∀ b ∈ l2, Q b := by
  intro l1 l2 h
  induction h with
  | nil =>
    intro _ b hb
    cases hb
  | cons ha htail ih =>
    rename_i x y lx ly
    intro hQ b hb
    rcases List.mem_cons.mp hb with hb | hb
    · exact hb ▸ hQ x (List.mem_cons_self x lx) y ha
    · exact ih (fun a hal => hQ a (List.mem_cons_of_mem x hal)) b hb

theorem alloc_forall2_bounds {cash : ℚ} {row : Row} :
    ∀ {weights : Weights} {es : List (ℤ × ℚ)},
      List.Forall₂ (fun tw sp => allocEntry cash row tw = .ok sp) weights es →
      0 ≤ cash →
      (∀ tw ∈ weights, 0 ≤ tw.2) →
      PositivePricesFor weights row →
      (∀ sp ∈ es, 0 ≤ sp.1 ∧ 0 < sp.2) ∧
        0 ≤ (es.map (fun sp => (sp.1 : ℚ) * sp.2)).sum ∧
        (es.map (fun sp => (sp.1 : ℚ) * sp.2)).sum
          ≤ cash * (weights.map (fun tw => tw.2)).sum := by
  intro weights es h2
  induction h2 with
  | nil =>
    intro _ _ _
    refine ⟨fun sp hsp => absurd hsp (List.not_mem_nil sp), ?_, ?_⟩ <;> simp
  | cons ha htail ih =>
    rename_i tw sp l1 l2
    intro hc hw hp
    obtain ⟨s, p⟩ := sp
    obtain ⟨hl, hp0, hs⟩ := allocEntry_ok_elim ha
    obtain ⟨q, hq, hqpos⟩ := hp tw (List.mem_cons_self tw l1)
    rw [hl] at hq
    injection hq with hq
    subst hq
    have hwpos : 0 ≤ tw.2 := hw tw (List.mem_cons_self tw l1)
    obtain ⟨ihmem, ihnn, ihle⟩ := ih hc
      (fun x hx => hw x (List.mem_cons_of_mem tw hx))
      (fun x hx => hp x (List.mem_cons_of_mem tw hx))
    have hsnn : 0 ≤ s := hs ▸ floor_share_nonneg hc hwpos hqpos
    have hvnn : 0 ≤ (s : ℚ) * p := by
      have : (0 : ℚ) ≤ (s : ℚ) := Int.cast_nonneg.mpr hsnn
      exact mul_nonneg this hqpos.le
    have hvle : (s : ℚ) * p ≤ cash * tw.2 := by
      rw [hs]
      exact floor_share_val_le hqpos
    refine ⟨?_, ?_, ?_⟩
    · intro x hx
      rcases List.mem_cons.mp hx with hx | hx
      · exact hx ▸ ⟨hsnn, hqpos⟩
      · exact ihmem x hx
    · simp only [List.map_cons, List.sum_cons]
      exact add_nonneg hvnn ihnn
    · simp only [List.map_cons, List.sum_cons, mul_add]
      exact add_le_add hvle ihle

theorem initialize_portfolio_stateOK {cash : ℚ} {row : Row} {weights : Weights}
    {sh : List ℤ} {lo : ℚ}
    (hcpos : 0 < cash)
    (hw : ∀ tw ∈ weights, 0 ≤ tw.2)
    (hsum : (weights.map (fun tw => tw.2)).sum ≤ 1)
    (hp : PositivePricesFor weights row)
    (h : initialize_portfolio cash row weights = .ok (sh, lo)) :
    StateOK weights (sh, lo) := by
  obtain ⟨es, hm, hsh, hlo⟩ := initialize_portfolio_ok_elim h
  have h2 := (mapE_ok_forall2 _ _ _).mp hm
  obtain ⟨hsp, hsum0, hsumle⟩ := alloc_forall2_bounds h2 hcpos.le hw hp
  have hlen : sh.length = weights.length := by
    rw [hsh, List.length_map]
    exact (List.Forall₂.length_eq h2).symm
  have hshnn : ∀ s ∈ sh, 0 ≤ s := by
    intro s hsmem
    rw [hsh] at hsmem
    obtain ⟨sp, hspmem, hspeq⟩ := List.mem_map.mp hsmem
    exact hspeq ▸ (hsp sp hspmem).1
  have hsumcash : (es.map (fun sp => (sp.1 : ℚ) * sp.2)).sum ≤ cash := by
    calc (es.map (fun sp => (sp.1 : ℚ) * sp.2)).sum
        ≤ cash * (weights.map (fun tw => tw.2)).sum := hsumle
      _ ≤ cash * 1 := mul_le_mul_of_nonneg_left hsum hcpos.le
      _ = cash := mul_one cash
  have hlonn : 0 ≤ lo := by
    rw [hlo]
    exact sub_nonneg.mpr hsumcash
  refine ⟨hlen, hshnn, hlonn, ?_⟩
  by_cases hex : ∃ s ∈ sh, 0 < s
  · exact Or.inl hex
  · right
    push_neg at hex
    have hall0 : ∀ sp ∈ es, ((sp.1 : ℚ) * sp.2) = 0 := by
      intro sp hspmem
      have h1 : sp.1 ∈ sh := by
        rw [hsh]
        exact List.mem_map_of_mem Prod.fst hspmem
      have h2' : sp.1 = 0 := le_antisymm (hex sp.1 h1) (hsp sp hspmem).1
      rw [h2']
      simp
    have : (es.map (fun sp => (sp.1 : ℚ) * sp.2)).sum = 0 := by
      apply List.sum_eq_zero
      intro x hx
      obtain ⟨sp, hspmem, hspeq⟩ := List.mem_map.mp hx
      exact hspeq ▸ hall0 sp hspmem
    rw [hlo, this, sub_zero]
    exact hcpos

theorem zip_vals_bounds :
    ∀ {sh : List ℤ} {ps : List ℚ},
      sh.length = ps.length →
      (∀ s ∈ sh, 0 ≤ s) → (∀ p ∈ ps, 0 < p) →
      0 ≤ (zipVals sh ps).sum ∧
        ((∃ s ∈ sh, 0 < s) → 0 < (zipVals sh ps).sum) := by
  intro sh
  induction sh with
  | nil =>
    intro ps _ _ _
    refine ⟨by simp [zipVals], ?_⟩
    rintro ⟨s, hs, -⟩
    cases hs
  | cons s rest ih =>
    intro ps hlen hs hp
    cases ps with
    | nil => simp at hlen
    | cons p ps' =>
      have hlen' : rest.length = ps'.length := by
        simpa using hlen
      have hsrest : ∀ x ∈ rest, 0 ≤ x := fun x hx => hs x (List.mem_cons_of_mem s hx)
      have hprest : ∀ x ∈ ps', 0 < x := fun x hx => hp x (List.mem_cons_of_mem p hx)
      obtain ⟨ihnn, ihpos⟩ := ih hlen' hsrest hprest
      have hppos : 0 < p := hp p (List.mem_cons_self p ps')
      have hsnn : 0 ≤ s := hs s (List.mem_cons_self s rest)
      have hheadnn : 0 ≤ (s : ℚ) * p :=
        mul_nonneg (Int.cast_nonneg.mpr hsnn) hppos.le
      simp only [zipVals, List.zipWith_cons_cons, List.sum_cons]
      refine ⟨add_nonneg hheadnn ihnn, ?_⟩
      rintro ⟨x, hx, hxpos⟩
      rcases List.mem_cons.mp hx with hx | hx
      · subst hx
        have : (0 : ℚ) < (x : ℚ) * p :=
          mul_pos (by exact_mod_cast hxpos) hppos
        exact add_pos_of_pos_of_nonneg this ihnn
      · exact add_pos_of_nonneg_of_pos hheadnn (ihpos ⟨x, hx, hxpos⟩)

theorem rowPrices_pos {row : Row} {weights : Weights}
    (hp : PositivePricesFor weights row) :
    ∃ ps, rowPrices row weights = .ok ps ∧ ps.length = weights.length ∧
      ∀ p ∈ ps, 0 < p := by
  have hf : ∀ tw ∈ weights, ∃ b,
      (match lookupRow row tw.1 with
        | none => Except.error (PyError.keyError tw.1)
        | some p => Except.ok p) = Except.ok b := by
    intro tw htw
    obtain ⟨p, hl, _⟩ := hp tw htw
    exact ⟨p, by rw [hl]⟩
  obtain ⟨ps, hps⟩ := mapE_ok_of_forall _ weights hf
  refine ⟨ps, hps, mapE_length hps, ?_⟩
  have h2 := (mapE_ok_forall2 _ _ _).mp hps
  refine forall2_mem_right (Q := fun p => 0 < p) h2 ?_
  intro tw htw b hb
  obtain ⟨p, hl, hppos⟩ := hp tw htw
  rw [hl] at hb
  simp only [Except.ok.injEq] at hb
  rwa [← hb]

theorem currentWeights_ok {total : ℚ} (h : total ≠ 0) :
    ∀ vals : List ℚ, currentWeights vals total = .ok (vals.map (fun v => v / total)) := by
  intro vals
  induction vals with
  | nil => rfl
  | cons v vs ih =>
    unfold currentWeights at ih ⊢
    simp only [mapE, ih]
    simp only [if_neg h, List.map_cons]

theorem maxDeviation_ok {curw : List ℚ} {weights : Weights}
    (hc : curw ≠ []) (hw : weights ≠ []) :
    ∃ m, maxDeviation curw weights = .ok m := by
  unfold maxDeviation
  cases hz : List.zipWith (fun cw (tw : Ticker × ℚ) => |cw - tw.2|) curw weights with
  | nil =>
    exfalso
    rcases List.zipWith_eq_nil_iff.mp hz with h | h
    · exact hc h
    · exact hw h
  | cons d ds => exact ⟨ds.foldl max d, rfl⟩

theorem perfOfState_ok_elim {weights : Weights} {date : Date} {row : Row}
    {sh : List ℤ} {lo : ℚ} {r : PerfRow}
    (h : perfOfState weights date row sh lo = .ok r) :
    ∃ ps, rowPrices row weights = .ok ps ∧
      r = ⟨date, zipVals sh ps, lo, (zipVals sh ps).sum + lo, r.max_weight_deviation⟩ := by
  unfold perfOfState at h
  split at h
  · cases h
  · rename_i ps hps
    split at h
    · cases h
    · rename_i curw hcurw
      split at h
      · cases h
      · rename_i m hm
        have h1 := Except.ok.inj h
        exact ⟨ps, hps, by rw [← h1]⟩

theorem perfOfState_ok_of_stateOK (date : Date) {weights : Weights} {row : Row}
    {sh : List ℤ} {lo : ℚ}
    (hne : weights ≠ [])
    (hp : PositivePricesFor weights row)
    (hok : StateOK weights (sh, lo)) :
    ∃ ps, rowPrices row weights = .ok ps ∧
      0 < (zipVals sh ps).sum + lo ∧
      ∃ m, perfOfState weights date row sh lo
        = .ok ⟨date, zipVals sh ps, lo, (zipVals sh ps).sum + lo, m⟩ := by
  obtain ⟨ps, hps, hlen, hpos⟩ := rowPrices_pos hp
  obtain ⟨hshlen, hshnn, hlonn, hdisj⟩ := hok
  have hlen2 : sh.length = ps.length := by rw [hshlen, hlen]
  obtain ⟨hnn, hpossum⟩ := zip_vals_bounds hlen2 hshnn hpos
  have htot : 0 < (zipVals sh ps).sum + lo := by
    rcases hdisj with hx | hlo
    · exact add_pos_of_pos_of_nonneg (hpossum hx) hlonn
    · exact add_pos_of_nonneg_of_pos hnn hlo
  have hcw := currentWeights_ok htot.ne' (zipVals sh ps)
  have hcwlen :
      ((zipVals sh ps).map (fun v => v / ((zipVals sh ps).sum + lo))).length
        = weights.length := by
    simp [zipVals, List.length_zipWith, hlen2, hlen]
  have hcwne :
      (zipVals sh ps).map (fun v => v / ((zipVals sh ps).sum + lo)) ≠ [] := by
    apply List.length_pos.mp
    rw [hcwlen]
    exact List.length_pos.mpr hne
  obtain ⟨m, hm⟩ := maxDeviation_ok hcwne hne
  refine ⟨ps, hps, htot, m, ?_⟩
  unfold perfOfState
  simp only [hps, hcw, hm]

theorem initialize_portfolio_ok_of_nonzero (cash : ℚ) {row : Row} {weights : Weights}
    (hp : ∀ tw ∈ weights, ∃ p, lookupRow row tw.1 = some p ∧ p ≠ 0) :
    ∃ sh lo, initialize_portfolio cash row weights = .ok (sh, lo) := by
  have hf : ∀ tw ∈ weights, ∃ b, allocEntry cash row tw = .ok b := by
    intro tw htw
    obtain ⟨p, hl, hp0⟩ := hp tw htw
    exact ⟨_, allocEntry_ok_intro cash hl hp0⟩
  obtain ⟨es, hes⟩ := mapE_ok_of_forall (allocEntry cash row) weights hf
  refine ⟨es.map Prod.fst, cash - (es.map (fun sp => (sp.1 : ℚ) * sp.2)).sum, ?_⟩
  unfold initialize_portfolio
  simp only [hes]

theorem dayStep_ok_elim {weights : Weights} {rebalDates : List Date} {firstDate : Date}
    {st : List ℤ × ℚ} {date : Date} {row : Row} {r : PerfRow} {st' : List ℤ × ℚ}
    (h : dayStep weights rebalDates firstDate st (date, row) = .ok (r, st')) :
    perfOfState weights date row st.1 st.2 = .ok r ∧
      ((date ∈ rebalDates ∧ date ≠ firstDate) →
        initialize_portfolio r.total row weights = .ok st') ∧
      (¬(date ∈ rebalDates ∧ date ≠ firstDate) → st' = st) := by
  unfold dayStep at h
  split at h
  · cases h
  · rename_i r0 hr0
    by_cases hcond : date ∈ rebalDates ∧ date ≠ firstDate
    · rw [if_pos hcond] at h
      split at h
      · cases h
      · rename_i st0 hst0
        have h1 := Except.ok.inj h
        rw [Prod.mk.injEq] at h1
        obtain ⟨hr, hst⟩ := h1
        subst hr
        subst hst
        exact ⟨hr0, fun _ => hst0, fun hc => absurd hcond hc⟩
    · rw [if_neg hcond] at h
      have h1 := Except.ok.inj h
      rw [Prod.mk.injEq] at h1
      obtain ⟨hr, hst⟩ := h1
      subst hr
      subst hst
      exact ⟨hr0, fun hc => absurd hc hcond, fun _ => rfl⟩

theorem dayStep_ok_of_stateOK {weights : Weights} {rebalDates : List Date}
    {firstDate : Date} {st : List ℤ × ℚ} {date : Date} {row : Row}
    (hne : weights ≠ [])
    (hw : ∀ tw ∈ weights, 0 ≤ tw.2)
    (hsum : (weights.map (fun tw => tw.2)).sum ≤ 1)
    (hp : PositivePricesFor weights row)
    (hok : StateOK weights st) :
    ∃ r st', dayStep weights rebalDates firstDate st (date, row) = .ok (r, st')
      ∧ StateOK weights st' := by
  obtain ⟨sh, lo⟩ := st
  obtain ⟨ps, hps, htot, m, hperf⟩ := perfOfState_ok_of_stateOK date hne hp hok
  by_cases hcond : date ∈ rebalDates ∧ date ≠ firstDate
  · have hp0 : ∀ tw ∈ weights, ∃ p, lookupRow row tw.1 = some p ∧ p ≠ 0 := by
      intro tw htw
      obtain ⟨p, hl, hppos⟩ := hp tw htw
      exact ⟨p, hl, hppos.ne'⟩
    obtain ⟨sh', lo', hinit⟩ :=
      initialize_portfolio_ok_of_nonzero ((zipVals sh ps).sum + lo) hp0
    have hok' : StateOK weights (sh', lo') :=
      initialize_portfolio_stateOK htot hw hsum hp hinit
    refine ⟨⟨date, zipVals sh ps, lo, (zipVals sh ps).sum + lo, m⟩, (sh', lo'), ?_, hok'⟩
    unfold dayStep
    simp only [hperf, if_pos hcond, hinit]
  · refine ⟨⟨date, zipVals sh ps, lo, (zipVals sh ps).sum + lo, m⟩, (sh, lo), ?_, hok⟩
    unfold dayStep
    simp only [hperf, if_neg hcond]

theorem simLoop_ok_of_stateOK {weights : Weights} {rebalDates : List Date}
    {firstDate : Date} :
    ∀ {table : List (Date × Row)} {st : List ℤ × ℚ},
      weights ≠ [] →
      (∀ tw ∈ weights, 0 ≤ tw.2) →
      (weights.map (fun tw => tw.2)).sum ≤ 1 →
      (∀ dr ∈ table, PositivePricesFor weights dr.2) →
      StateOK weights st →
      ∃ rows, simLoop weights rebalDates firstDate st table = .ok rows := by
  intro table
  induction table with
  | nil =>
    intro st _ _ _ _ _
    exact ⟨[], rfl⟩
  | cons dr rest ih =>
    intro st hne hw hsum hrows hok
    obtain ⟨date, row⟩ := dr
    obtain ⟨r, st', hday, hok'⟩ := dayStep_ok_of_stateOK hne hw hsum
      (hrows _ (List.mem_cons_self _ rest)) hok
    obtain ⟨tail, htail⟩ := ih hne hw hsum
      (fun x hx => hrows x (List.mem_cons_of_mem _ hx)) hok'
    refine ⟨r :: tail, ?_⟩
    unfold simLoop
    rw [hday]
    simp only [htail]

theorem simLoop_total_eq {weights : Weights} {rebalDates : List Date}
    {firstDate : Date} :
    ∀ {table : List (Date × Row)} {st : List ℤ × ℚ} {rows : List PerfRow},
      simLoop weights rebalDates firstDate st table = .ok rows →
      ∀ r ∈ rows, r.total = r.vals.sum + r.cash := by
  intro table
  induction table with
  | nil =>
    intro st rows h r hr
    have h1 := Except.ok.inj h
    rw [← h1] at hr
    cases hr
  | cons dr rest ih =>
    intro st rows h r hr
    obtain ⟨date, row⟩ := dr
    unfold simLoop at h
    split at h
    · cases h
    · rename_i pr hday
      obtain ⟨r0, st'⟩ := pr
      split at h
      · cases h
      · rename_i tail htail
        have h1 := Except.ok.inj h
        rw [← h1] at hr
        rcases List.mem_cons.mp hr with hr | hr
        · subst hr
          obtain ⟨hperf, -, -⟩ := dayStep_ok_elim hday
          obtain ⟨ps, -, hrshape⟩ := perfOfState_ok_elim hperf
          rw [hrshape]
        · exact ih htail r hr

theorem simLoop_length {weights : Weights} {rebalDates : List Date}
    {firstDate : Date} :
    ∀ {table : List (Date × Row)} {st : List ℤ × ℚ} {rows : List PerfRow},
      simLoop weights rebalDates firstDate st table = .ok rows →
      rows.length = table.length := by
  intro table
  induction table with
  | nil =>
    intro st rows h
    have h1 := Except.ok.inj h
    rw [← h1]
    rfl
  | cons dr rest ih =>
    intro st rows h
    unfold simLoop at h
    split at h
    · cases h
    · rename_i pr hday
      obtain ⟨r0, st'⟩ := pr
      split at h
      · cases h
      · rename_i tail htail
        have h1 := Except.ok.inj h
        rw [← h1, List.length_cons, List.length_cons, ih htail]

theorem simulate_core_ok_elim {table : List (Date × Row)} {weights : Weights}
    {cash : ℚ} {rebalDates : List Date} {rows : List PerfRow}
    (h : simulate_core table weights cash rebalDates = .ok rows) :
    ∃ d0 r0 rest st0, table = (d0, r0) :: rest ∧
      initialize_portfolio cash r0 weights = .ok st0 ∧
      simLoop weights rebalDates d0 st0 table = .ok rows := by
  unfold simulate_core at h
  split at h
  · cases h
  · rename_i d0 r0 rest
    split at h
    · cases h
    · rename_i st0 hst0
      exact ⟨d0, r0, rest, st0, rfl, hst0, h⟩

theorem zipVals_map_fst_snd (es : List (ℤ × ℚ)) :
    zipVals (es.map Prod.fst) (es.map Prod.snd)
      = es.map (fun sp => (sp.1 : ℚ) * sp.2) := by
  induction es with
  | nil => rfl
  | cons e es ih =>
    simp only [List.map_cons, zipVals, List.zipWith_cons_cons]
    rw [← zipVals, ih]

theorem simLoop_cons_elim {weights : Weights} {rebalDates : List Date}
    {firstDate : Date} {sh : List ℤ} {lo : ℚ} {date : Date} {row : Row}
    {rest : List (Date × Row)} {rows : List PerfRow}
    (h : simLoop weights rebalDates firstDate (sh, lo) ((date, row) :: rest)
      = .ok rows) :
    ∃ r st' tail, rows = r :: tail
      ∧ perfOfState weights date row sh lo = .ok r
      ∧ ((date ∈ rebalDates ∧ date ≠ firstDate) →
          initialize_portfolio r.total row weights = .ok st')
      ∧ (¬(date ∈ rebalDates ∧ date ≠ firstDate) → st' = (sh, lo))
      ∧ simLoop weights rebalDates firstDate st' rest = .ok tail := by
  unfold simLoop at h
  split at h
  · cases h
  · rename_i r0 st0 hday
    split at h
    · cases h
    · rename_i tail htail
      have h1 := Except.ok.inj h
      obtain ⟨hperf, hreb, hnoreb⟩ := dayStep_ok_elim hday
      exact ⟨r0, st0, tail, h1.symm, hperf, hreb, hnoreb, htail⟩

/-! ### The claims -/

/-- C1: in the daily loop, the record for a date is emitted from the
incoming (pre-rebalance) holdings — so its `max_weight_deviation`
reflects the pre-rebalance weights; when the date is a computed
rebalance date other than the first date of the series, the holdings
and leftover cash used for the rest of the simulation are replaced by
re-running the allocation at the recorded total portfolio value and
that date's prices; a date equal to the first date (in particular one
that is also a rebalance boundary) leaves the state unchanged. -/
theorem c1_emit_before_rebalance {weights : Weights} {rebalDates : List Date}
    {firstDate : Date} {sh : List ℤ} {lo : ℚ} {date : Date} {row : Row}
    {rest : List (Date × Row)} {rows : List PerfRow}
    (h : simLoop weights rebalDates firstDate (sh, lo) ((date, row) :: rest)
      = .ok rows) :
    ∃ r st' tail, rows = r :: tail
      ∧ perfOfState weights date row sh lo = .ok r
      ∧ ((date ∈ rebalDates ∧ date ≠ firstDate) →
          initialize_portfolio r.total row weights = .ok st')
      ∧ (date = firstDate → st' = (sh, lo))
      ∧ (¬(date ∈ rebalDates ∧ date ≠ firstDate) → st' = (sh, lo))
      ∧ simLoop weights rebalDates firstDate st' rest = .ok tail := by
  obtain ⟨r, st', tail, hrows, hperf, hreb, hnoreb, htail⟩ := simLoop_cons_elim h
  refine ⟨r, st', tail, hrows, hperf, hreb, ?_, hnoreb, htail⟩
  intro hfd
  exact hnoreb (fun hc => hc.2 hfd)

/-- C2: every row of a successful simulation satisfies
`total = Σ(position values) + cash`, exactly (the embedding computes in
exact rational arithmetic, so "within floating-point tolerance" holds
with zero tolerance). -/
theorem c2_row_total_invariant {table : List (Date × Row)} {weights : Weights}
    {initial_cash : ℚ} {rebalDates : List Date} {rows : List PerfRow}
    (h : simulate_core table weights initial_cash rebalDates = .ok rows) :
    ∀ r ∈ rows, r.total = r.vals.sum + r.cash := by
  obtain ⟨d0, r0, rest, st0, -, -, hloop⟩ := simulate_core_ok_elim h
  exact simLoop_total_eq hloop

/-- C10: rebalancing is self-financing — when a daily step rebalances,
the new share counts valued at that date's prices plus the new leftover
cash sum exactly to the total recorded in that date's emitted row. -/
theorem c10_rebalance_self_financing {weights : Weights} {rebalDates : List Date}
    {firstDate : Date} {st : List ℤ × ℚ} {date : Date} {row : Row}
    {r : PerfRow} {st' : List ℤ × ℚ}
    (h : dayStep weights rebalDates firstDate st (date, row) = .ok (r, st'))
    (hreb : date ∈ rebalDates ∧ date ≠ firstDate) :
    ∃ ps, rowPrices row weights = .ok ps ∧
      (zipVals st'.1 ps).sum + st'.2 = r.total := by
  obtain ⟨-, hrebal, -⟩ := dayStep_ok_elim h
  obtain ⟨sh', lo'⟩ := st'
  obtain ⟨es, hm, hsh, hlo⟩ := initialize_portfolio_ok_elim (hrebal hreb)
  refine ⟨es.map Prod.snd, rowPrices_of_allocEntry hm, ?_⟩
  simp only [hsh, hlo, zipVals_map_fst_snd]
  ring

/-- Witness for C1: a one-ticker rebalance day (price 110, 50 shares,
rebalance boundary 2020-02-01 differing from the first date). -/
theorem c1_witness :
    ∃ r st' tail,
      ([⟨(2020,2,1), [5500], 0, 5500, 0⟩] : List PerfRow) = r :: tail
      ∧ perfOfState [(0,1)] (2020,2,1) [(0,110)] [50] 0 = .ok r
      ∧ (((2020,2,1) ∈ [((2020,2,1) : Date)] ∧ ((2020,2,1) : Date) ≠ (2020,1,1)) →
          initialize_portfolio r.total [(0,110)] [(0,1)] = .ok st')
      ∧ (((2020,2,1) : Date) = (2020,1,1) → st' = ([50], 0))
      ∧ (¬(((2020,2,1) : Date) ∈ [((2020,2,1) : Date)]
            ∧ ((2020,2,1) : Date) ≠ (2020,1,1)) → st' = ([50], 0))
      ∧ simLoop [(0,1)] [((2020,2,1) : Date)] (2020,1,1) st' [] = .ok tail :=
  c1_emit_before_rebalance (by
    have h1 : ⌊(5500 * 1 / 110 : ℚ)⌋ = 50 := by rw [Int.floor_eq_iff]; norm_num
    norm_num [simLoop, dayStep, perfOfState, rowPrices, currentWeights, maxDeviation,
      zipVals, initialize_portfolio, mapE, allocEntry, lookupRow, h1, abs])

/-- Witness for C2: the first row of a two-ticker simulation
(10000 cash, equal weights, both prices 100). -/
theorem c2_witness :
    (⟨(2020,1,1), [5000, 5000], 0, 10000, 0⟩ : PerfRow).total
      = (⟨(2020,1,1), [5000, 5000], 0, 10000, 0⟩ : PerfRow).vals.sum
        + (⟨(2020,1,1), [5000, 5000], 0, 10000, 0⟩ : PerfRow).cash :=
  c2_row_total_invariant
    (show simulate_core [((2020,1,1), [(0,100),(1,100)])] [(0,1/2),(1,1/2)] 10000 []
        = .ok [⟨(2020,1,1), [5000, 5000], 0, 10000, 0⟩] by
      have h1 : ⌊(10000 * (1/2) / 100 : ℚ)⌋ = 50 := by rw [Int.floor_eq_iff]; norm_num
      norm_num [simulate_core, simLoop, dayStep, perfOfState, rowPrices, currentWeights,
        maxDeviation, zipVals, initialize_portfolio, mapE, allocEntry, lookupRow, h1, abs])
    _ (List.mem_singleton.mpr rfl)

/-- Witness for C10: the rebalance of `c1_witness`; the reallocated
50 shares at price 110 plus zero leftover equal the recorded total. -/
theorem c10_witness :
    ∃ ps, rowPrices [(0,110)] [(0,1)] = .ok ps ∧
      (zipVals ([50], (0:ℚ)).1 ps).sum + ([50], (0:ℚ)).2
        = (⟨(2020,2,1), [5500], 0, 5500, 0⟩ : PerfRow).total :=
  c10_rebalance_self_financing
    (show dayStep [(0,1)] [((2020,2,1) : Date)] (2020,1,1) ([50], 0)
        ((2020,2,1), [(0,110)])
        = .ok (⟨(2020,2,1), [5500], 0, 5500, 0⟩, ([50], 0)) by
      have h1 : ⌊(5500 * 1 / 110 : ℚ)⌋ = 50 := by rw [Int.floor_eq_iff]; norm_num
      norm_num [dayStep, perfOfState, rowPrices, currentWeights, maxDeviation,
        zipVals, initialize_portfolio, mapE, allocEntry, lookupRow, h1, abs])
    (by simp)

theorem alloc_forall2_shares {cash : ℚ} {row : Row} :
    ∀ {weights : Weights} {es : List (ℤ × ℚ)},
      List.Forall₂ (fun tw sp => allocEntry cash row tw = .ok sp) weights es →
      0 ≤ cash → (∀ tw ∈ weights, 0 ≤ tw.2) → PositivePricesFor weights row →
      List.Forall₂ (fun tw s => ∃ p, lookupRow row tw.1 = some p ∧ 0 < p ∧
        s = ⌊cash * tw.2 / p⌋ ∧ 0 ≤ s) weights (es.map Prod.fst) := by
  intro weights es h
  induction h with
  | nil =>
    intro _ _ _
    exact List.Forall₂.nil
  | cons ha htail ih =>
    rename_i tw sp l1 l2
    intro hc hw hp
    obtain ⟨s, p⟩ := sp
    obtain ⟨hl, hp0, hs⟩ := allocEntry_ok_elim ha
    obtain ⟨q, hq, hqpos⟩ := hp tw (List.mem_cons_self tw l1)
    rw [hl] at hq
    injection hq with hq
    subst hq
    have hwn : 0 ≤ tw.2 := hw tw (List.mem_cons_self tw l1)
    refine List.Forall₂.cons ⟨p, hl, hqpos, hs, hs ▸ floor_share_nonneg hc hwn hqpos⟩ ?_
    exact ih hc (fun x hx => hw x (List.mem_cons_of_mem tw hx))
      (fun x hx => hp x (List.mem_cons_of_mem tw hx))

theorem mapE_first_error {α β : Type} {f : α → Except PyError β} {e : PyError} :
    ∀ {pre : List α} {a : α} {post : List α},
      (∀ x ∈ pre, ∃ b, f x = .ok b) → f a = .error e →
      mapE f (pre ++ a :: post) = .error e := by
  intro pre
  induction pre with
  | nil =>
    intro a post _ ha
    simp only [List.nil_append, mapE, ha]
  | cons x xs ih =>
    intro a post hx ha
    obtain ⟨b, hb⟩ := hx x (List.mem_cons_self x xs)
    simp only [List.cons_append, mapE, hb, List.append_eq]
    rw [ih (fun y hy => hx y (List.mem_cons_of_mem x hy)) ha]

/-- C3 counterexample: one ticker at price 3, weight 1, initial cash
100. The allocator floors to 33 shares (position value 99) with
leftover 1, and the recorded day-0 total is 100 — the full initial
cash — not "initial cash minus the rounding leftover" (99). -/
theorem c3_counterexample :
    simulate_core [((2020,1,1), [(0,3)])] [(0,1)] 100 []
        = .ok [⟨(2020,1,1), [99], 1, 100, 1/100⟩]
      ∧ initialize_portfolio 100 [(0,3)] [(0,1)] = .ok ([33], 1)
      ∧ (100 : ℚ) ≠ 100 - 1 := by
  have h : ⌊(100 * 1 / 3 : ℚ)⌋ = 33 := by rw [Int.floor_eq_iff]; norm_num
  refine ⟨?_, ?_, by norm_num⟩
  · norm_num [simulate_core, simLoop, dayStep, perfOfState, rowPrices, currentWeights,
      maxDeviation, zipVals, initialize_portfolio, mapE, allocEntry, lookupRow, h, abs]
  · norm_num [initialize_portfolio, mapE, allocEntry, lookupRow, h]

/-- C3 (amended): for non-negative cash, positive prices and
non-negative weights the Allocator returns, per ticker,
`shares = ⌊cash·weight/price⌋` (a non-negative integer) and
`leftover = cash − Σ(shares·price)`; for a non-empty table with
weights summing to 1 and zero rebalancing, the day-0 `total` equals
`Σ(shares₀·price₀) + leftover₀`, which is exactly `initial_cash`
(not `initial_cash` minus the leftover). -/
theorem c3_allocator_formula_day0 {cash : ℚ} {row : Row} {weights : Weights}
    {sh : List ℤ} {lo : ℚ} {d : Date} {rest : List (Date × Row)} {rows : List PerfRow}
    (hc : 0 ≤ cash)
    (hw : ∀ tw ∈ weights, 0 ≤ tw.2)
    (hp : PositivePricesFor weights row)
    (hsum : (weights.map (fun tw => tw.2)).sum = 1)
    (halloc : initialize_portfolio cash row weights = .ok (sh, lo))
    (hsim : simulate_core ((d, row) :: rest) weights cash [] = .ok rows) :
    List.Forall₂ (fun tw s => ∃ p, lookupRow row tw.1 = some p ∧ 0 < p ∧
        s = ⌊cash * tw.2 / p⌋ ∧ 0 ≤ s) weights sh
      ∧ ∃ ps, rowPrices row weights = .ok ps
        ∧ lo = cash - (zipVals sh ps).sum
        ∧ ∃ r tail, rows = r :: tail
            ∧ r.total = (zipVals sh ps).sum + lo
            ∧ r.total = cash := by
  obtain ⟨es, hm, hsh, hlo⟩ := initialize_portfolio_ok_elim halloc
  have h2 := (mapE_ok_forall2 _ _ _).mp hm
  have hps := rowPrices_of_allocEntry hm
  have hzv : zipVals sh (es.map Prod.snd) = es.map (fun sp => (sp.1 : ℚ) * sp.2) := by
    rw [hsh, zipVals_map_fst_snd]
  refine ⟨hsh ▸ alloc_forall2_shares h2 hc hw hp, es.map Prod.snd, hps, ?_, ?_⟩
  · rw [hzv, hlo]
  · obtain ⟨d0, r0, rest0, st0, htab, hinit0, hloop⟩ := simulate_core_ok_elim hsim
    rw [List.cons.injEq, Prod.mk.injEq] at htab
    obtain ⟨⟨hd0, hr0⟩, hrest0⟩ := htab
    subst hd0
    subst hr0
    subst hrest0
    rw [halloc] at hinit0
    have hst0 := Except.ok.inj hinit0
    subst hst0
    obtain ⟨r, st', tail, hrows, hperf, -, -, -⟩ := simLoop_cons_elim hloop
    obtain ⟨ps', hps', hrshape⟩ := perfOfState_ok_elim hperf
    rw [hps] at hps'
    have hpseq := Except.ok.inj hps'
    subst hpseq
    refine ⟨r, tail, hrows, ?_, ?_⟩
    · rw [hrshape]
    · rw [hrshape]
      show (zipVals sh (es.map Prod.snd)).sum + lo = cash
      rw [hzv, hlo]
      ring

/-- Witness for the amended C3: one ticker at price 3, weight 1,
cash 100 — 33 shares, leftover 1, day-0 total exactly 100. -/
theorem c3_witness :
    List.Forall₂ (fun (tw : Ticker × ℚ) (s : ℤ) =>
        ∃ p, lookupRow [(0,3)] tw.1 = some p ∧ 0 < p ∧
          s = ⌊(100 : ℚ) * tw.2 / p⌋ ∧ 0 ≤ s) [(0,1)] [33]
      ∧ ∃ ps, rowPrices [(0,3)] [(0,1)] = .ok ps
        ∧ (1 : ℚ) = 100 - (zipVals [33] ps).sum
        ∧ ∃ r tail, ([⟨(2020,1,1), [99], 1, 100, 1/100⟩] : List PerfRow) = r :: tail
            ∧ r.total = (zipVals [33] ps).sum + 1
            ∧ r.total = 100 :=
  c3_allocator_formula_day0
    (by norm_num)
    (by intro tw htw; simp at htw; subst htw; norm_num)
    (by
      intro tw htw
      simp at htw
      subst htw
      exact ⟨3, by norm_num [lookupRow], by norm_num⟩)
    (by norm_num)
    (show initialize_portfolio 100 [(0,3)] [(0,1)] = .ok ([33], 1) by
      have h : ⌊(100 * 1 / 3 : ℚ)⌋ = 33 := by rw [Int.floor_eq_iff]; norm_num
      norm_num [initialize_portfolio, mapE, allocEntry, lookupRow, h])
    (show simulate_core (((2020,1,1), [(0,3)]) :: []) [(0,1)] 100 []
        = .ok [⟨(2020,1,1), [99], 1, 100, 1/100⟩] by
      have h : ⌊(100 * 1 / 3 : ℚ)⌋ = 33 := by rw [Int.floor_eq_iff]; norm_num
      norm_num [simulate_core, simLoop, dayStep, perfOfState, rowPrices, currentWeights,
        maxDeviation, zipVals, initialize_portfolio, mapE, allocEntry, lookupRow, h, abs])

/-- C4 counterexample: a strictly negative price (−10) is not rejected:
the Allocator succeeds (no `InvalidInputError` exists anywhere in the
code) and returns −10 shares. -/
theorem c4_counterexample :
    initialize_portfolio 100 [(0, -10)] [(0, 1)] = .ok ([-10], 0) := by
  have h : ⌊(100 * 1 / (-10) : ℚ)⌋ = -10 := by rw [Int.floor_eq_iff]; norm_num
  norm_num [initialize_portfolio, mapE, allocEntry, lookupRow, h]

/-- C4 (amended): the Allocator performs no input validation of its
own. A weight ticker absent from the prices makes it fail with
`KeyError` and a zero price with `ZeroDivisionError` (Python's native
exceptions, at the first offending ticker in weight order); whenever
every weight ticker has a non-zero price — negative prices included —
the call succeeds. -/
theorem c4_error_behavior (cash : ℚ) (row : Row) (pre post : Weights)
    (tw : Ticker × ℚ)
    (hpre : ∀ x ∈ pre, ∃ p, lookupRow row x.1 = some p ∧ p ≠ 0) :
    (lookupRow row tw.1 = none →
      initialize_portfolio cash row (pre ++ tw :: post) = .error (.keyError tw.1))
    ∧ (lookupRow row tw.1 = some 0 →
      initialize_portfolio cash row (pre ++ tw :: post) = .error .zeroDivisionError)
    ∧ ((∀ x ∈ pre ++ tw :: post, ∃ p, lookupRow row x.1 = some p ∧ p ≠ 0) →
      ∃ sh lo, initialize_portfolio cash row (pre ++ tw :: post) = .ok (sh, lo)) := by
  refine ⟨?_, ?_, ?_⟩
  · intro hnone
    have he : allocEntry cash row tw = .error (.keyError tw.1) := by
      unfold allocEntry
      rw [hnone]
    unfold initialize_portfolio
    have hf : ∀ x ∈ pre, ∃ b, allocEntry cash row x = .ok b := by
      intro x hx
      obtain ⟨p, hl, hp0⟩ := hpre x hx
      exact ⟨_, allocEntry_ok_intro cash hl hp0⟩
    rw [mapE_first_error hf he]
  · intro h0
    have he : allocEntry cash row tw = .error .zeroDivisionError := by
      unfold allocEntry
      rw [h0]
      simp
    unfold initialize_portfolio
    have hf : ∀ x ∈ pre, ∃ b, allocEntry cash row x = .ok b := by
      intro x hx
      obtain ⟨p, hl, hp0⟩ := hpre x hx
      exact ⟨_, allocEntry_ok_intro cash hl hp0⟩
    rw [mapE_first_error hf he]
  · intro hall
    exact initialize_portfolio_ok_of_nonzero cash hall

/-- Witness for the amended C4: with prices {0 ↦ 5}, the weight list
[(0, 1/2), (1, 1/2)] fails at ticker 1 with `KeyError`; the same head
entry alone succeeds. -/
theorem c4_witness :
    (lookupRow [(0, 5)] (1, (1/2 : ℚ)).1 = none →
      initialize_portfolio 100 [(0, 5)] ([(0, 1/2)] ++ (1, (1/2 : ℚ)) :: [])
        = .error (.keyError (1, (1/2 : ℚ)).1))
    ∧ (lookupRow [(0, 5)] (1, (1/2 : ℚ)).1 = some 0 →
      initialize_portfolio 100 [(0, 5)] ([(0, 1/2)] ++ (1, (1/2 : ℚ)) :: [])
        = .error .zeroDivisionError)
    ∧ ((∀ x ∈ [(0, (1/2 : ℚ))] ++ (1, (1/2 : ℚ)) :: [],
          ∃ p, lookupRow [(0, 5)] x.1 = some p ∧ p ≠ 0) →
      ∃ sh lo, initialize_portfolio 100 [(0, 5)] ([(0, 1/2)] ++ (1, (1/2 : ℚ)) :: [])
        = .ok (sh, lo)) :=
  c4_error_behavior 100 [(0, 5)] [(0, 1/2)] [] (1, 1/2)
    (by
      intro x hx
      simp at hx
      subst hx
      exact ⟨5, by norm_num [lookupRow], by norm_num⟩)

/-- C7 counterexample: weights {A ↦ 1, B ↦ 1} — each a fraction in
[0, 1] — with both prices 1 and cash 100: the Allocator accepts the
input and returns leftover −100, violating the claimed non-negative
cash balance. -/
theorem c7_counterexample :
    initialize_portfolio 100 [(0, 1), (1, 1)] [(0, 1), (1, 1)]
        = .ok ([100, 100], -100)
      ∧ ¬(0 ≤ (-100 : ℚ)) := by
  have h : ⌊(100 * 1 / 1 : ℚ)⌋ = 100 := by rw [Int.floor_eq_iff]; norm_num
  exact ⟨by norm_num [initialize_portfolio, mapE, allocEntry, lookupRow, h], by norm_num⟩

/-- C7 (amended): after an Allocator invocation with non-negative cash,
strictly positive prices and weights that are fractions in [0, 1]
**summing to at most 1**, every share count is non-negative and the
leftover cash is non-negative. (The core indeed accepts weight lists
not summing to 1 — see the success clause of `c4_error_behavior` — but
for sums above 1 the leftover can be negative, as
`c7_counterexample` shows.) -/
theorem c7_holdings_invariant {cash : ℚ} {row : Row} {weights : Weights}
    {sh : List ℤ} {lo : ℚ}
    (hc : 0 ≤ cash)
    (hw : ∀ tw ∈ weights, 0 ≤ tw.2 ∧ tw.2 ≤ 1)
    (hp : PositivePricesFor weights row)
    (hsum : (weights.map (fun tw => tw.2)).sum ≤ 1)
    (h : initialize_portfolio cash row weights = .ok (sh, lo)) :
    (∀ s ∈ sh, 0 ≤ s) ∧ 0 ≤ lo := by
  obtain ⟨es, hm, hsh, hlo⟩ := initialize_portfolio_ok_elim h
  have h2 := (mapE_ok_forall2 _ _ _).mp hm
  obtain ⟨hsp, hsum0, hsumle⟩ :=
    alloc_forall2_bounds h2 hc (fun tw htw => (hw tw htw).1) hp
  constructor
  · intro s hsmem
    rw [hsh] at hsmem
    obtain ⟨sp, hspmem, hspeq⟩ := List.mem_map.mp hsmem
    exact hspeq ▸ (hsp sp hspmem).1
  · rw [hlo]
    refine sub_nonneg.mpr ?_
    calc (es.map (fun sp => (sp.1 : ℚ) * sp.2)).sum
        ≤ cash * (weights.map (fun tw => tw.2)).sum := hsumle
      _ ≤ cash * 1 := mul_le_mul_of_nonneg_left hsum hc
      _ = cash := mul_one cash

/-- Witness for the amended C7: equal weights 1/2 at prices 100,
cash 10000 — 50 shares each, leftover 0. -/
theorem c7_witness :
    (∀ s ∈ ([50, 50] : List ℤ), 0 ≤ s) ∧ (0 : ℚ) ≤ 0 :=
  c7_holdings_invariant
    (by norm_num)
    (by intro tw htw; rcases List.mem_cons.mp htw with h | h <;> simp_all <;> norm_num)
    (by
      intro tw htw
      rcases List.mem_cons.mp htw with h | h
      · subst h
        exact ⟨100, by norm_num [lookupRow], by norm_num⟩
      · simp at h
        subst h
        exact ⟨100, by norm_num [lookupRow], by norm_num⟩)
    (by norm_num)
    (show initialize_portfolio 10000 [(0, 100), (1, 100)] [(0, 1/2), (1, 1/2)]
        = .ok ([50, 50], 0) by
      have h1 : ⌊(10000 * (1/2) / 100 : ℚ)⌋ = 50 := by rw [Int.floor_eq_iff]; norm_num
      norm_num [initialize_portfolio, mapE, allocEntry, lookupRow, h1])

/-- C8: the simulator's error behavior. With a resolvable rebalance
frequency, a zero-row price table fails with the "Empty price data"
`ValueError` (the spec's EmptyDataError); an unresolvable frequency
fails with the "Failed to resample" `ValueError` (the spec's
InvalidConfigError); and a structurally valid input — non-empty table,
non-empty weights with fractions summing to at most 1, positive
initial cash, and every weight ticker priced positively in every row —
raises no error. -/
theorem c8_error_taxonomy (weights : Weights) (initial_cash : ℚ)
    (rebalance_period : String) (table : List (Date × Row)) :
    ((∃ k, periodKeyFn (if rebalance_period = "Q" then "QE" else rebalance_period)
        = some k) →
      table = [] →
      simulate_portfolio table weights initial_cash rebalance_period
        = .error (.valueError "Empty price data. Cannot initialize portfolio."))
    ∧ (periodKeyFn (if rebalance_period = "Q" then "QE" else rebalance_period) = none →
      simulate_portfolio table weights initial_cash rebalance_period
        = .error (.valueError ("Failed to resample with period "
            ++ (if rebalance_period = "Q" then "QE" else rebalance_period))))
    ∧ ((∃ k, periodKeyFn (if rebalance_period = "Q" then "QE" else rebalance_period)
        = some k) →
      table ≠ [] →
      weights ≠ [] →
      0 < initial_cash →
      (∀ tw ∈ weights, 0 ≤ tw.2) →
      (weights.map (fun tw => tw.2)).sum ≤ 1 →
      (∀ dr ∈ table, PositivePricesFor weights dr.2) →
      ∃ rows, simulate_portfolio table weights initial_cash rebalance_period
        = .ok rows) := by
  refine ⟨?_, ?_, ?_⟩
  · rintro ⟨k, hk⟩ htab
    subst htab
    unfold simulate_portfolio resampleRebalanceDates
    simp only [hk]
    rfl
  · intro hk
    unfold simulate_portfolio resampleRebalanceDates
    simp only [hk]
  · rintro ⟨k, hk⟩ htab hne hcash hw hsum hpos
    unfold simulate_portfolio resampleRebalanceDates
    rw [hk]
    cases table with
    | nil => exact absurd rfl htab
    | cons dr0 rest =>
      obtain ⟨d0, r0⟩ := dr0
      have hp0 : PositivePricesFor weights r0 :=
        hpos (d0, r0) (List.mem_cons_self _ rest)
      obtain ⟨sh0, lo0, hinit⟩ := initialize_portfolio_ok_of_nonzero initial_cash
        (fun tw htw => by
          obtain ⟨p, hl, hppos⟩ := hp0 tw htw
          exact ⟨p, hl, hppos.ne'⟩)
      have hok : StateOK weights (sh0, lo0) :=
        initialize_portfolio_stateOK hcash hw hsum hp0 hinit
      obtain ⟨rows, hrows⟩ :=
        @simLoop_ok_of_stateOK weights (lastPerKey k (((d0, r0) :: rest).map Prod.fst))
          d0 ((d0, r0) :: rest) (sh0, lo0) hne hw hsum hpos hok
      refine ⟨rows, ?_⟩
      simp only [hk]
      unfold simulate_core
      simp only [hinit]
      exact hrows

/-- Witness for C8: the three branches at concrete inputs — an empty
table with a valid monthly code, a one-row table with the unresolvable
code "XX", and the same one-row table with "ME" (one ticker, price 5,
weight 1, cash 100). -/
theorem c8_witness :
    simulate_portfolio [] [(0, 1)] 100 "ME"
        = .error (.valueError "Empty price data. Cannot initialize portfolio.")
      ∧ simulate_portfolio [((2020,1,31), [(0, 5)])] [(0, 1)] 100 "XX"
        = .error (.valueError ("Failed to resample with period " ++ "XX"))
      ∧ ∃ rows, simulate_portfolio [((2020,1,31), [(0, 5)])] [(0, 1)] 100 "ME"
        = .ok rows := by
  refine ⟨?_, ?_, ?_⟩
  · exact (c8_error_taxonomy [(0, 1)] 100 "ME" []).1 ⟨_, rfl⟩ rfl
  · exact (c8_error_taxonomy [(0, 1)] 100 "XX" [((2020,1,31), [(0, 5)])]).2.1 rfl
  · exact (c8_error_taxonomy [(0, 1)] 100 "ME" [((2020,1,31), [(0, 5)])]).2.2 ⟨_, rfl⟩
      (by norm_num)
      (by norm_num)
      (by norm_num)
      (by intro tw htw; simp at htw; subst htw; norm_num)
      (by norm_num)
      (by
        intro dr hdr
        simp at hdr
        subst hdr
        intro tw htw
        simp at htw
        subst htw
        exact ⟨5, by norm_num [lookupRow], by norm_num⟩)

/-- C9: simulating a price table with exactly one row yields a
performance table whose daily return series is empty — the Return
Calculator returns an empty sequence rather than raising — and whose
MetricsReport has total_return = 0 (the explicit length guard). -/
theorem c9_one_row {d : Date} {row : Row} {weights : Weights} {cash : ℚ}
    {rebalDates : List Date} {rows : List PerfRow}
    (h : simulate_core [(d, row)] weights cash rebalDates = .ok rows) :
    (calculate_returns (perfTotals rows)).daily = []
    ∧ (calculate_metrics (((calculate_returns (perfTotals rows)).daily).map
        (fun q => (q : ℝ)))).total_return = 0 := by
  obtain ⟨d0, r0, rest, st0, htab, -, hloop⟩ := simulate_core_ok_elim h
  have hlen : rows.length = 1 := simLoop_length hloop
  obtain ⟨r, hr⟩ := List.length_eq_one.mp hlen
  subst hr
  constructor
  · simp [calculate_returns, perfTotals, pctChange]
  · simp [calculate_returns, perfTotals, pctChange, calculate_metrics]

/-- Witness for C9: one ticker, one row (price 3, weight 1, cash 100). -/
theorem c9_witness :
    (calculate_returns (perfTotals [⟨(2020,1,1), [99], 1, 100, 1/100⟩])).daily = []
    ∧ (calculate_metrics
        (((calculate_returns (perfTotals [⟨(2020,1,1), [99], 1, 100, 1/100⟩])).daily).map
          (fun q => (q : ℝ)))).total_return = 0 :=
  c9_one_row
    (show simulate_core [((2020,1,1), [(0,3)])] [(0,1)] 100 []
        = .ok [⟨(2020,1,1), [99], 1, 100, 1/100⟩] by
      have h : ⌊(100 * 1 / 3 : ℚ)⌋ = 33 := by rw [Int.floor_eq_iff]; norm_num
      norm_num [simulate_core, simLoop, dayStep, perfOfState, rowPrices, currentWeights,
        maxDeviation, zipVals, initialize_portfolio, mapE, allocEntry, lookupRow, h, abs])

theorem scanl_replicate {f : ℝ → ℝ → ℝ} {a : ℝ} (hf : f a a = a) :
    ∀ n, List.scanl f a (List.replicate n a) = List.replicate (n + 1) a := by
  intro n
  induction n with
  | zero => rfl
  | succ k ih =>
    rw [List.replicate_succ, List.scanl_cons, hf, ih]
    rfl

theorem foldl_replicate {f : ℝ → ℝ → ℝ} {a : ℝ} (hf : f a a = a) :
    ∀ n, List.foldl f a (List.replicate n a) = a := by
  intro n
  induction n with
  | zero => rfl
  | succ k ih => rw [List.replicate_succ, List.foldl_cons, hf, ih]

theorem zipWith_replicate_both {f : ℝ → ℝ → ℝ} {a b : ℝ} :
    ∀ n, List.zipWith f (List.replicate n a) (List.replicate n b)
      = List.replicate n (f a b) := by
  intro n
  induction n with
  | zero => rfl
  | succ k ih =>
    rw [List.replicate_succ, List.replicate_succ, List.zipWith_cons_cons, ih,
      List.replicate_succ]

/-- C5: on a non-empty all-zero daily-return series (the spec's
zero-volatility scenario) the Metrics Engine returns
sharpe = 0 and sortino = 0 — the divisions are guarded, not NaN or an
error — and max_drawdown = 0. -/
theorem c5_zero_volatility {l : List ℝ} (hne : l ≠ []) (h0 : ∀ x ∈ l, x = 0) :
    (calculate_metrics l).sharpe = 0
    ∧ (calculate_metrics l).sortino = 0
    ∧ (calculate_metrics l).max_drawdown = 0 := by
  have hrep : l = List.replicate l.length (0 : ℝ) :=
    List.eq_replicate_iff.mpr ⟨rfl, h0⟩
  obtain ⟨k, hk⟩ : ∃ k, l.length = k + 1 :=
    Nat.exists_eq_succ_of_ne_zero (fun hz => hne (List.length_eq_zero.mp hz))
  have hvar : sampleVar l = 0 := by
    rw [sampleVar, hrep]
    simp [listMean, List.sum_replicate, List.map_replicate]
  have hstd : sampleStd l = 0 := by rw [sampleStd, hvar, Real.sqrt_zero]
  have hfil : l.filter (fun r => decide (r < 0)) = [] := by
    rw [List.filter_eq_nil_iff]
    intro a ha
    simp [h0 a ha]
  have hmap : l.map (fun r => 1 + r) = List.replicate (k + 1) (1 : ℝ) := by
    conv in l => rw [hrep]
    rw [List.map_replicate, hk]
    norm_num
  have hcum : cumprod (l.map (fun r => 1 + r)) = List.replicate (k + 1) (1 : ℝ) := by
    rw [hmap, cumprod, scanl_replicate (by norm_num), List.replicate_succ]
    rfl
  have hcmax : cummax (List.replicate (k + 1) (1 : ℝ))
      = List.replicate (k + 1) (1 : ℝ) := by
    rw [List.replicate_succ, cummax, scanl_replicate (max_self 1), List.replicate_succ]
  have hdd : List.zipWith (fun c m => c / m - 1)
      (List.replicate (k + 1) (1 : ℝ)) (List.replicate (k + 1) (1 : ℝ))
      = List.replicate (k + 1) (0 : ℝ) := by
    rw [zipWith_replicate_both]
    norm_num
  refine ⟨?_, ?_, ?_⟩
  · simp [calculate_metrics, hstd]
  · simp [calculate_metrics, hfil]
  · have h1 : (calculate_metrics l).max_drawdown
        = match List.zipWith (fun c m => c / m - 1) (cumprod (l.map (fun r => 1 + r)))
            (cummax (cumprod (l.map (fun r => 1 + r)))) with
          | [] => 0
          | d :: ds => List.foldl min d ds := rfl
    rw [h1, hcum, hcmax, hdd, List.replicate_succ]
    exact foldl_replicate (min_self 0) k

/-- Witness for C5: the all-zero daily-return series [0, 0, 0]. -/
theorem c5_witness :
    (calculate_metrics [0, 0, 0]).sharpe = 0
    ∧ (calculate_metrics [0, 0, 0]).sortino = 0
    ∧ (calculate_metrics [0, 0, 0]).max_drawdown = 0 :=
  c5_zero_volatility (by simp) (by intro x hx; simpa using hx)

theorem sampleVar_replicate_zero (n : ℕ) :
    sampleVar (List.replicate n (0 : ℝ)) = 0 := by
  simp [sampleVar, listMean, List.sum_replicate, List.map_replicate]

theorem zipWith_sub_self (p : List ℝ) :
    List.zipWith (fun x y => x - y) p p = List.replicate p.length 0 := by
  induction p with
  | nil => rfl
  | cons x xs ih => simp [List.zipWith_cons_cons, ih, List.replicate_succ]

theorem zipWith_self_eq_map (f : ℝ → ℝ → ℝ) (p : List ℝ) :
    List.zipWith f p p = p.map (fun x => f x x) := by
  induction p with
  | nil => rfl
  | cons x xs ih => simp [List.zipWith_cons_cons, ih]

/-- C6 counterexample: for the identical non-constant return series
[1/10, 0] (length 2, same dates), the Comparator returns beta = 2, not
1 — `np.cov` normalizes by n−1 while `np.var` normalizes by n. -/
theorem c6_counterexample :
    (compare_to_benchmark [1/10, 0] [1/10, 0]).beta = 2
    ∧ (compare_to_benchmark [1/10, 0] [1/10, 0]).beta ≠ 1 := by
  have hv : (0 : ℝ) < popVar [1/10, 0] := by norm_num [popVar, listMean]
  have h : (compare_to_benchmark [1/10, 0] [1/10, 0]).beta = 2 := by
    simp only [compare_to_benchmark]
    rw [if_pos hv]
    norm_num [sampleCov, popVar, listMean]
  exact ⟨h, by rw [h]; norm_num⟩

/-- C6 (amended): for identical portfolio and benchmark daily-return
series (length ≥ 2), tracking_error = 0 and information_ratio = 0 (the
zero cases are guarded, no division error); beta and alpha depend on
the population variance: a constant series (variance 0) gives the
guarded beta = 1 and alpha = 0, but a non-constant series gives
beta = n/(n−1) — not 1 — and alpha = (1 − n/(n−1))·(mean·252), because
the covariance is normalized by n−1 (np.cov) while the variance is
normalized by n (np.var). -/
theorem c6_identical_series (p : List ℝ) (h2 : 2 ≤ p.length) :
    (compare_to_benchmark p p).tracking_error = 0
    ∧ (compare_to_benchmark p p).info_ratio = 0
    ∧ (popVar p = 0 → (compare_to_benchmark p p).beta = 1
        ∧ (compare_to_benchmark p p).alpha = 0)
    ∧ (0 < popVar p →
        (compare_to_benchmark p p).beta = (p.length : ℝ) / ((p.length : ℝ) - 1)
        ∧ (compare_to_benchmark p p).alpha
          = (1 - (p.length : ℝ) / ((p.length : ℝ) - 1)) * (listMean p * 252)) := by
  have hte : sampleStd (List.zipWith (fun x y => x - y) p p) * Real.sqrt 252 = 0 := by
    rw [zipWith_sub_self, sampleStd, sampleVar_replicate_zero, Real.sqrt_zero, zero_mul]
  have htnot : ¬ (0 : ℝ) < sampleStd (List.zipWith (fun x y => x - y) p p)
      * Real.sqrt 252 := by
    rw [hte]
    exact lt_irrefl 0
  refine ⟨?_, ?_, ?_, ?_⟩
  · simp only [compare_to_benchmark]
    exact hte
  · simp only [compare_to_benchmark]
    exact if_neg htnot
  · intro hv
    have hnot : ¬ (0 : ℝ) < popVar p := by
      rw [hv]
      exact lt_irrefl 0
    constructor
    · simp only [compare_to_benchmark]
      exact if_neg hnot
    · simp only [compare_to_benchmark]
      rw [if_neg hnot, one_mul, sub_self]
  · intro hv
    have hn2 : (2 : ℝ) ≤ (p.length : ℝ) := by exact_mod_cast h2
    have hn0 : (p.length : ℝ) ≠ 0 := by linarith
    have hn1 : (p.length : ℝ) - 1 ≠ 0 := by linarith
    have hS : (List.zipWith (fun x y => (x - listMean p) * (y - listMean p)) p p).sum
        = (p.map (fun x => (x - listMean p) ^ 2)).sum := by
      rw [zipWith_self_eq_map]
      congr 1
      refine List.map_congr_left ?_
      intro x _
      ring
    have hvar : popVar p
        = (p.map (fun x => (x - listMean p) ^ 2)).sum / (p.length : ℝ) := rfl
    have hSpos : 0 < (p.map (fun x => (x - listMean p) ^ 2)).sum := by
      by_contra hle
      push_neg at hle
      have hnn : (0 : ℝ) ≤ (p.length : ℝ) := by linarith
      have : popVar p ≤ 0 := by
        rw [hvar]
        exact div_nonpos_of_nonpos_of_nonneg hle hnn
      linarith
    have hcov : sampleCov p p
        = (p.map (fun x => (x - listMean p) ^ 2)).sum / ((p.length : ℝ) - 1) := by
      rw [sampleCov, hS]
    have hbv : sampleCov p p / popVar p = (p.length : ℝ) / ((p.length : ℝ) - 1) := by
      rw [hcov, hvar]
      field_simp
      ring
    constructor
    · simp only [compare_to_benchmark]
      rw [if_pos hv, hbv]
    · simp only [compare_to_benchmark]
      rw [if_pos hv, hbv]
      ring

/-- Witness for the amended C6: the identical series [1/10, 0],
length 2, population variance 1/400 > 0. -/
theorem c6_witness :
    (compare_to_benchmark [1/10, 0] [1/10, 0]).tracking_error = 0
    ∧ (compare_to_benchmark [1/10, 0] [1/10, 0]).info_ratio = 0
    ∧ (popVar [1/10, 0] = 0 → (compare_to_benchmark [1/10, 0] [1/10, 0]).beta = 1
        ∧ (compare_to_benchmark [1/10, 0] [1/10, 0]).alpha = 0)
    ∧ (0 < popVar [1/10, 0] →
        (compare_to_benchmark [1/10, 0] [1/10, 0]).beta
          = (([1/10, 0] : List ℝ).length : ℝ) / ((([1/10, 0] : List ℝ).length : ℝ) - 1)
        ∧ (compare_to_benchmark [1/10, 0] [1/10, 0]).alpha
          = (1 - (([1/10, 0] : List ℝ).length : ℝ)
              / ((([1/10, 0] : List ℝ).length : ℝ) - 1))
            * (listMean [1/10, 0] * 252)) :=
  c6_identical_series [1/10, 0] (by norm_num)

end LazyTracker
